import Mathlib

set_option maxRecDepth 100000

/-!
# Verification of the sha1sum repository core (`src/src/lib.rs`)

A shallow embedding of the SHA-1 digest engine from `src/src/lib.rs`
(the library variant) and of the recursive schedule-word function of the
`src/sha1sum/src/main.rs` binary variant.  Machine integers are modelled
as `Nat` with explicit reduction modulo `2^32` (for `u32` wrapping
arithmetic) and modulo `2^64` (for the `u64` bit-length field); byte
buffers are `List Nat`; fallible Rust functions returning
`Result<_, _>` become `Except String _`.
-/

deriving instance DecidableEq for Except

/-- `2^32`, the `u32` wraparound modulus. -/
def U32M : Nat := 4294967296

/-- `2^64`, the `u64` wraparound modulus. -/
def U64M : Nat := 18446744073709551616

/-- Models `u32::rotate_left(v, n)` as used in `src/src/lib.rs`
(`a.rotate_left(5)`, `b.rotate_left(30)`, `value.rotate_left(1)`). -/
def rotl32 (v n : Nat) : Nat :=
  ((v <<< n) ||| (v >>> (32 - n))) % U32M

/-- Models `u32::wrapping_add`. -/
def wadd (x y : Nat) : Nat := (x + y) % U32M

/-- Models `SHA1::ch` from `src/src/lib.rs`: `(x & y) ^ (!x & z)`.
The `u32` complement `!x` is `x ^ 0xffffffff` for `x < 2^32`. -/
def ch (x y z : Nat) : Nat := (x &&& y) ^^^ ((x ^^^ 4294967295) &&& z)

/-- Models `SHA1::parity` from `src/src/lib.rs`: `x ^ y ^ z`. -/
def parity (x y z : Nat) : Nat := x ^^^ y ^^^ z

/-- Models `SHA1::maj` from `src/src/lib.rs`:
`(x & y) ^ (x & z) ^ (y & z)`. -/
def maj (x y z : Nat) : Nat := (x &&& y) ^^^ (x &&& z) ^^^ (y &&& z)

/-- Models `SHA1::f` from `src/src/lib.rs`: the round function selected
by the Rust range match `0..20 / 20..40 / 40..60 / 60..80`.  The source
panics for `t >= 80`; that unreachable arm is modelled by `0`. -/
def f (x y z t : Nat) : Nat :=
  if t < 20 then ch x y z
  else if t < 40 then parity x y z
  else if t < 60 then maj x y z
  else if t < 80 then parity x y z
  else 0

/-- Models `SHA1::K` from `src/src/lib.rs`: the step constant selected
by the Rust range match `0..20 / 20..40 / 40..60 / 60..80`.  The source
panics for `t >= 80`; that unreachable arm is modelled by `0`. -/
def K (t : Nat) : Nat :=
  if t < 20 then 0x5a827999
  else if t < 40 then 0x6ed9eba1
  else if t < 60 then 0x8f1bbcdc
  else if t < 80 then 0xca62c1d6
  else 0

/-- Models one 4-byte big-endian read of `prepare_message_schedule`
(`u32::from_be_bytes(buf)` where `buf` holds bytes `4*i .. 4*i+3` of the
chunk; a byte beyond the buffer leaves the zero-initialised `buf` entry,
exactly like the zero-filled Rust read buffer). -/
def beWord (chunk : List Nat) (i : Nat) : Nat :=
  (chunk.getD (4 * i) 0 <<< 24) ||| (chunk.getD (4 * i + 1) 0 <<< 16) |||
    (chunk.getD (4 * i + 2) 0 <<< 8) ||| chunk.getD (4 * i + 3) 0

/-- The body of the first loop of `SHA1::prepare_message_schedule`:
`schedule[i] = u32::from_be_bytes(buf)`. -/
def fillStep (chunk : List Nat) (schedule : List Nat) (i : Nat) : List Nat :=
  schedule.set i (beWord chunk i)

/-- The body of the second loop of `SHA1::prepare_message_schedule`:
`schedule[i] = (schedule[i-3] ^ schedule[i-8] ^ schedule[i-14] ^
schedule[i-16]).rotate_left(1)`. -/
def expandStep (schedule : List Nat) (i : Nat) : List Nat :=
  schedule.set i
    (rotl32 ((schedule.getD (i - 3) 0) ^^^ (schedule.getD (i - 8) 0) ^^^
      (schedule.getD (i - 14) 0) ^^^ (schedule.getD (i - 16) 0)) 1)

/-- Models `SHA1::prepare_message_schedule` from `src/src/lib.rs`: a
zero-initialised `[u32; 80]` written in place in index order, first by
`for i in 0..16` and then by `for i in 16..80`. -/
def prepare_message_schedule (chunk : List Nat) : List Nat :=
  (List.range' 16 64).foldl expandStep
    ((List.range' 0 16).foldl (fillStep chunk) (List.replicate 80 0))

/-- Models the `SHA1` struct of `src/src/lib.rs`: the five `u32` hash
state words. -/
structure SHA1 where
  h0 : Nat
  h1 : Nat
  h2 : Nat
  h3 : Nat
  h4 : Nat
deriving DecidableEq, Repr

/-- Models `SHA1::new()`: the SHA-1 initial constants. -/
def SHA1.new : SHA1 :=
  ⟨0x67452301, 0xefcdab89, 0x98badcfe, 0x10325476, 0xc3d2e1f0⟩

/-- Models the body of the `for t in 0..80` loop of
`SHA1::ingest_chunk`: the chained `wrapping_add`s computing `tmp`,
followed by the register shift `e=d; d=c; c=rotl(b,30); b=a; a=tmp`. -/
def roundStep (sched : List Nat) (st : Nat × Nat × Nat × Nat × Nat) (t : Nat) :
    Nat × Nat × Nat × Nat × Nat :=
  match st with
  | (a, b, c, d, e) =>
    let tmp := wadd (wadd (wadd (wadd (rotl32 a 5) (f b c d t)) e) (K t))
      (sched.getD t 0)
    (tmp, a, rotl32 b 30, c, d)

/-- Models `SHA1::ingest_chunk` from `src/src/lib.rs`: prepare the
schedule, run the 80 rounds on working variables initialised from
`h0..h4`, then `wrapping_add` the working variables back into the state.
The source returns `Ok(())` on every 64-byte chunk (its only `?` sites
cannot fail on an in-memory cursor), so the state transition is total. -/
def SHA1.ingest_chunk (s : SHA1) (chunk : List Nat) : SHA1 :=
  let sched := prepare_message_schedule chunk
  match (List.range 80).foldl (roundStep sched) (s.h0, s.h1, s.h2, s.h3, s.h4) with
  | (a, b, c, d, e) =>
    ⟨wadd a s.h0, wadd b s.h1, wadd c s.h2, wadd d s.h3, wadd e s.h4⟩

/-- One run of the read loop of `SHA1::ingest` from `src/src/lib.rs`.
Each turn reads `bytes_read = min 64 remaining` bytes from the
in-memory cursor: `0` ends with `Ok`, `64` compresses the block and
continues, anything else returns the `InvalidData` error.  The loop
consumes 64 bytes per turn; `fuel` is a structural bound on the number
of turns (the wrapper below passes `stream.length`, which always
suffices, so the exhaustion branch is unreachable). -/
def ingestLoop (s : SHA1) (stream : List Nat) (fuel : Nat) :
    SHA1 × Except String Unit :=
  if stream.length = 0 then (s, Except.ok ())
  else if 64 ≤ stream.length then
    match fuel with
    | 0 => (s, Except.error "loop fuel exhausted")
    | n + 1 => ingestLoop (s.ingest_chunk (stream.take 64)) (stream.drop 64) n
  else
    (s, Except.error
      ("bad message size, bytes read: " ++ toString stream.length ++ " != 64"))

/-- Models `SHA1::ingest` from `src/src/lib.rs`.  Because the Rust
method mutates `self` and returns `Result<(), _>`, the model returns
the final state together with the result. -/
def SHA1.ingest (s : SHA1) (stream : List Nat) : SHA1 × Except String Unit :=
  ingestLoop s stream stream.length

/-- One lowercase hexadecimal digit, as produced by Rust `{:08x}`
formatting. -/
def hexDigit (n : Nat) : Char :=
  if n < 10 then Char.ofNat (48 + n) else Char.ofNat (87 + n)

/-- Models the `{:08x}` rendering of one `u32`: eight zero-padded
lowercase hex digits, most significant nibble first. -/
def hex8 (v : Nat) : String :=
  String.mk ((List.range 8).map (fun i => hexDigit ((v >>> (28 - 4 * i)) % 16)))

/-- Models `SHA1::digest` from `src/src/lib.rs`: the five state words
rendered as 40 lowercase hex characters. -/
def SHA1.digest (s : SHA1) : String :=
  hex8 s.h0 ++ hex8 s.h1 ++ hex8 s.h2 ++ hex8 s.h3 ++ hex8 s.h4

/-- Models `u64::to_be_bytes`. -/
def beBytes8 (v : Nat) : List Nat :=
  [(v >>> 56) % 256, (v >>> 48) % 256, (v >>> 40) % 256, (v >>> 32) % 256,
    (v >>> 24) % 256, (v >>> 16) % 256, (v >>> 8) % 256, v % 256]

/-- Models `SHA1::pad_message` from `src/src/lib.rs`.  `new_size` is the
source's `msg_len - rem + 64`; `try_into` is the `usize -> u64`
conversion (failing only for values outside `u64`); the bit length
`total_size_64 * 8` is a `u64` multiplication, which wraps modulo `2^64`
on overflow in a release build (a debug build would abort instead —
either way no error value is returned).  `resize` appends zeros, then
the byte at `msg_len` is set to `0x80` and the final 8 bytes are
overwritten with the big-endian bit length. -/
def pad_message (message : List Nat) (total_size : Nat) : Except String (List Nat) :=
  let msg_len := message.length
  let rem := msg_len % 64
  let new_size := msg_len - rem + 64
  if total_size < U64M then
    let total_size_64_bytes := beBytes8 ((total_size * 8) % U64M)
    let resized := message ++ List.replicate (new_size - msg_len) 0
    let marked := resized.set msg_len 0x80
    Except.ok (marked.take (new_size - 8) ++ total_size_64_bytes)
  else
    Except.error "out of range integral type conversion attempted"

/-- The whole-message pipeline used by the library's own tests: pad the
complete message once (with `total_size` equal to its byte length), feed
the padded buffer to a fresh engine, and render the digest. -/
def digestAfterPad (msg : List Nat) : Except String String :=
  match pad_message msg msg.length with
  | Except.ok padded => Except.ok ((SHA1.new.ingest padded).1.digest)
  | Except.error e => Except.error e

/-- The consecutive 64-byte blocks of a buffer, in order (the way the
`ingest` read loop slices its stream; a trailing partial block, which
only arises for lengths that are not multiples of 64, is kept as-is). -/
def chunks64 (stream : List Nat) : List (List Nat) :=
  if _h0 : stream.length = 0 then []
  else if _h : 64 ≤ stream.length then
    stream.take 64 :: chunks64 (stream.drop 64)
  else [stream]
termination_by stream.length
decreasing_by simp only [List.length_drop]; omega

namespace Sha1sumMain

/-- Models `SHA1::rotl_u32` from `src/sha1sum/src/main.rs`:
`(v << n) | (v >> (32 - n))` on `u32`, where the left shift discards
bits above position 31. -/
def rotl_u32 (v n : Nat) : Nat := ((v <<< n) % U32M) ||| (v >>> (32 - n))

/-- Models the `0..16` arm of `SHA1::W` from `src/sha1sum/src/main.rs`:
`u32::from_be_bytes` of the 4-byte slice of the block starting at `i`. -/
def sliceWordBE (block : List Nat) (i : Nat) : Nat :=
  (block.getD i 0 <<< 24) ||| (block.getD (i + 1) 0 <<< 16) |||
    (block.getD (i + 2) 0 <<< 8) ||| block.getD (i + 3) 0

/-- Models `SHA1::W` from `src/sha1sum/src/main.rs`: the on-demand
recursive schedule-word function.  For `t` in `0..16` it reads the
big-endian word at byte offset `4*t`; for `t` in `16..80` it recurses
on `t-3`, `t-8`, `t-14`, `t-16`; the source panics for `t >= 80`, an
unreachable arm modelled by `0`. -/
def W (block : List Nat) (t : Nat) : Nat :=
  if _h1 : t < 16 then sliceWordBE block (4 * t)
  else if _h2 : t < 80 then
    rotl_u32 ((W block (t - 3)) ^^^ (W block (t - 8)) ^^^
      (W block (t - 14)) ^^^ (W block (t - 16))) 1
  else 0
termination_by t
decreasing_by all_goals omega

end Sha1sumMain

namespace SpecModel

/-! Definitions in this namespace are modelled from the words of the
specification (spec.md §4.2 and §4.4 / claim C2), to be compared with
the embedding of `SHA1::ingest_chunk` above: `f` is Ch on `[0,20)`,
Parity on `[20,40)` and `[60,80)`, Maj on `[40,60)`; `K(t)` is the four
constants on those same ranges; `tmp` is a single sum reduced modulo
`2^32`; the loop runs `t = 0..79` in strictly increasing order. -/

/-- Spec-modelled round function (claim C2 wording). -/
def fSpec (x y z t : Nat) : Nat :=
  if (20 ≤ t ∧ t < 40) ∨ (60 ≤ t ∧ t < 80) then parity x y z
  else if t < 20 then ch x y z
  else if 40 ≤ t ∧ t < 60 then maj x y z
  else 0

/-- Spec-modelled step constants (claim C2 wording). -/
def KSpec (t : Nat) : Nat :=
  if t < 20 then 0x5a827999
  else if 20 ≤ t ∧ t < 40 then 0x6ed9eba1
  else if 40 ≤ t ∧ t < 60 then 0x8f1bbcdc
  else if 60 ≤ t ∧ t < 80 then 0xca62c1d6
  else 0

/-- Spec-modelled round: `tmp = rotl32(a,5) + f(b,c,d,t) + e + K(t) +
W[t]` with every addition taken modulo `2^32`, then `e=d; d=c;
c=rotl32(b,30); b=a; a=tmp`. -/
def stepSpec (sched : List Nat) (st : Nat × Nat × Nat × Nat × Nat) (t : Nat) :
    Nat × Nat × Nat × Nat × Nat :=
  match st with
  | (a, b, c, d, e) =>
    ((rotl32 a 5 + fSpec b c d t + e + KSpec t + sched.getD t 0) % U32M,
      a, rotl32 b 30, c, d)

/-- Spec-modelled loop: apply the rounds for `t, t+1, ..., 79` in
strictly increasing order. -/
def loopSpec (sched : List Nat) (t : Nat) (st : Nat × Nat × Nat × Nat × Nat) :
    Nat × Nat × Nat × Nat × Nat :=
  if _h : t < 80 then loopSpec sched (t + 1) (stepSpec sched st t) else st
termination_by 80 - t

/-- Spec-modelled block compression (claim C2): working variables from
`h0..h4`, 80 increasing rounds, then add each working variable modulo
`2^32` into the state. -/
def ingestChunkSpec (s : SHA1) (chunk : List Nat) : SHA1 :=
  let sched := prepare_message_schedule chunk
  match loopSpec sched 0 (s.h0, s.h1, s.h2, s.h3, s.h4) with
  | (a, b, c, d, e) =>
    ⟨(a + s.h0) % U32M, (b + s.h1) % U32M, (c + s.h2) % U32M,
      (d + s.h3) % U32M, (e + s.h4) % U32M⟩

end SpecModel

/-! ## Basic facts about the `ingest` read loop -/

lemma ingestLoop_len_zero (s : SHA1) (stream : List Nat) (fuel : Nat)
    (h : stream.length = 0) : ingestLoop s stream fuel = (s, Except.ok ()) := by
  rw [ingestLoop.eq_def, if_pos h]

lemma ingestLoop_short (s : SHA1) (stream : List Nat) (fuel : Nat)
    (h1 : stream.length ≠ 0) (h2 : stream.length < 64) :
    ingestLoop s stream fuel =
      (s, Except.error
        ("bad message size, bytes read: " ++ toString stream.length ++ " != 64")) := by
  rw [ingestLoop.eq_def, if_neg h1, if_neg (by omega)]

lemma ingestLoop_step (s : SHA1) (stream : List Nat) (n : Nat)
    (h : 64 ≤ stream.length) :
    ingestLoop s stream (n + 1) =
      ingestLoop (s.ingest_chunk (stream.take 64)) (stream.drop 64) n := by
  rw [ingestLoop.eq_def, if_neg (by omega), if_pos h]

lemma ingestLoop_congr (fuel : Nat) :
    ∀ (fuel' : Nat) (s : SHA1) (stream : List Nat),
      stream.length / 64 ≤ fuel → stream.length / 64 ≤ fuel' →
      ingestLoop s stream fuel = ingestLoop s stream fuel' := by
  induction fuel with
  | zero =>
    intro fuel' s stream h h'
    rcases Nat.eq_zero_or_pos stream.length with h0 | h0
    · rw [ingestLoop_len_zero s stream _ h0, ingestLoop_len_zero s stream _ h0]
    · have hlt : stream.length < 64 := by omega
      rw [ingestLoop_short s stream _ (by omega) hlt,
        ingestLoop_short s stream _ (by omega) hlt]
  | succ n ih =>
    intro fuel' s stream h h'
    rcases Nat.eq_zero_or_pos stream.length with h0 | h0
    · rw [ingestLoop_len_zero s stream _ h0, ingestLoop_len_zero s stream _ h0]
    rcases Nat.lt_or_ge stream.length 64 with hlt | hge
    · rw [ingestLoop_short s stream _ (by omega) hlt,
        ingestLoop_short s stream _ (by omega) hlt]
    · have hf' : 1 ≤ fuel' := by omega
      obtain ⟨m, rfl⟩ : ∃ m, fuel' = m + 1 := ⟨fuel' - 1, by omega⟩
      rw [ingestLoop_step s stream n hge, ingestLoop_step s stream m hge]
      have hdrop : (stream.drop 64).length = stream.length - 64 := by
        simp [List.length_drop]
      refine ih m _ _ ?_ ?_ <;> rw [hdrop] <;> omega

lemma ingest_eq_loop (s : SHA1) (stream : List Nat) (fuel : Nat)
    (h : stream.length / 64 ≤ fuel) :
    s.ingest stream = ingestLoop s stream fuel := by
  rw [SHA1.ingest]
  exact ingestLoop_congr _ _ s stream (Nat.div_le_self _ _) h

lemma ingest_nil (s : SHA1) : s.ingest [] = (s, Except.ok ()) := rfl

lemma ingest_short (s : SHA1) (stream : List Nat)
    (h1 : stream.length ≠ 0) (h2 : stream.length < 64) :
    s.ingest stream =
      (s, Except.error
        ("bad message size, bytes read: " ++ toString stream.length ++ " != 64")) := by
  rw [SHA1.ingest]; exact ingestLoop_short s stream _ h1 h2

lemma ingest_block (s : SHA1) (stream : List Nat) (h : 64 ≤ stream.length) :
    s.ingest stream = (s.ingest_chunk (stream.take 64)).ingest (stream.drop 64) := by
  obtain ⟨m, hm⟩ : ∃ m, stream.length = m + 1 := ⟨stream.length - 1, by omega⟩
  rw [SHA1.ingest, hm, ingestLoop_step s stream m h]
  refine (ingest_eq_loop _ _ m ?_).symm
  simp only [List.length_drop]
  omega

lemma chunks64_len_zero (stream : List Nat) (h : stream.length = 0) :
    chunks64 stream = [] := by
  rw [chunks64.eq_def, dif_pos h]

lemma chunks64_ge (stream : List Nat) (h : 64 ≤ stream.length) :
    chunks64 stream = stream.take 64 :: chunks64 (stream.drop 64) := by
  rw [chunks64.eq_def, dif_neg (by omega : ¬ stream.length = 0), dif_pos h]

lemma ingest_ok_iff :
    ∀ (n : Nat) (stream : List Nat) (s : SHA1), stream.length = n →
      ((s.ingest stream).2 = Except.ok () ↔ n % 64 = 0) := by
  intro n
  induction n using Nat.strong_induction_on with
  | _ n ih =>
    intro stream s hlen
    rcases Nat.eq_zero_or_pos n with h0 | h0
    · subst h0
      obtain rfl : stream = [] := List.length_eq_zero.mp hlen
      rw [ingest_nil]
      simp
    rcases Nat.lt_or_ge n 64 with hlt | hge
    · rw [ingest_short s stream (by omega) (by omega)]
      constructor
      · intro hcontra
        exact absurd hcontra (by simp)
      · intro hmod
        omega
    · rw [ingest_block s stream (by omega)]
      have hdl : (stream.drop 64).length = n - 64 := by
        simp [List.length_drop, hlen]
      rw [ih (n - 64) (by omega) _ _ hdl]
      omega

lemma ingest_eq_chunks :
    ∀ (n : Nat) (stream : List Nat) (s : SHA1), stream.length = n → n % 64 = 0 →
      s.ingest stream = ((chunks64 stream).foldl SHA1.ingest_chunk s, Except.ok ()) := by
  intro n
  induction n using Nat.strong_induction_on with
  | _ n ih =>
    intro stream s hlen hmod
    rcases Nat.eq_zero_or_pos n with h0 | h0
    · subst h0
      obtain rfl : stream = [] := List.length_eq_zero.mp hlen
      rw [ingest_nil, chunks64_len_zero [] (by simp)]
      rfl
    · have hge : 64 ≤ n := by omega
      rw [ingest_block s stream (by omega), chunks64_ge stream (by omega)]
      have hdl : (stream.drop 64).length = n - 64 := by
        simp [List.length_drop, hlen]
      rw [ih (n - 64) (by omega) _ _ hdl (by omega)]
      rfl

lemma ingest_append :
    ∀ (n : Nat) (a b : List Nat) (s : SHA1), a.length = n → n % 64 = 0 →
      s.ingest (a ++ b) = ((s.ingest a).1).ingest b := by
  intro n
  induction n using Nat.strong_induction_on with
  | _ n ih =>
    intro a b s hlen hmod
    rcases Nat.eq_zero_or_pos n with h0 | h0
    · subst h0
      obtain rfl : a = [] := List.length_eq_zero.mp hlen
      rw [ingest_nil]
      rfl
    · have hge : 64 ≤ n := by omega
      have hab : 64 ≤ (a ++ b).length := by
        simp [List.length_append, hlen]
        omega
      rw [ingest_block s (a ++ b) hab, ingest_block s a (by omega)]
      have htake : (a ++ b).take 64 = a.take 64 := by
        rw [List.take_append_eq_append_take, show 64 - a.length = 0 by omega,
          List.take_zero, List.append_nil]
      have hdrop : (a ++ b).drop 64 = a.drop 64 ++ b := by
        rw [List.drop_append_eq_append_drop, show 64 - a.length = 0 by omega,
          List.drop_zero]
      rw [htake, hdrop]
      have hdl : (a.drop 64).length = n - 64 := by
        simp [List.length_drop, hlen]
      exact ih (n - 64) (by omega) _ _ _ hdl (by omega)

lemma ingest_err :
    ∀ (n : Nat) (stream : List Nat) (s : SHA1), stream.length = n → n % 64 ≠ 0 →
      (s.ingest stream).1 = (s.ingest (stream.take (64 * (n / 64)))).1 ∧
      (s.ingest (stream.take (64 * (n / 64)))).2 = Except.ok () ∧
      ∃ e, (s.ingest stream).2 = Except.error e := by
  intro n
  induction n using Nat.strong_induction_on with
  | _ n ih =>
    intro stream s hlen hmod
    rcases Nat.lt_or_ge n 64 with hlt | hge
    · have hq : n / 64 = 0 := by omega
      rw [hq, Nat.mul_zero, List.take_zero, ingest_nil,
        ingest_short s stream (by omega) (by omega)]
      exact ⟨rfl, rfl, _, rfl⟩
    · have hlen' : (stream.take (64 * (n / 64))).length = 64 * (n / 64) := by
        simp [List.length_take, hlen]
        omega
      have hge' : 64 ≤ (stream.take (64 * (n / 64))).length := by
        rw [hlen']
        have : 1 ≤ n / 64 := by omega
        omega
      rw [ingest_block s stream (by omega),
        ingest_block s (stream.take (64 * (n / 64))) hge']
      have htt : (stream.take (64 * (n / 64))).take 64 = stream.take 64 := by
        rw [List.take_take]
        congr 1
        have : 1 ≤ n / 64 := by omega
        omega
      have htd : (stream.take (64 * (n / 64))).drop 64 =
          (stream.drop 64).take (64 * ((n - 64) / 64)) := by
        rw [List.drop_take]
        congr 1
        omega
      rw [htt, htd]
      have hdl : (stream.drop 64).length = n - 64 := by
        simp [List.length_drop, hlen]
      have := ih (n - 64) (by omega) (stream.drop 64)
        (s.ingest_chunk (stream.take 64)) hdl (by omega)
      exact this

/-! ## Facts about the message-schedule fill loops -/

lemma fill_length (chunk : List Nat) :
    ∀ (n i : Nat) (sch : List Nat),
      ((List.range' i n).foldl (fillStep chunk) sch).length = sch.length := by
  intro n
  induction n with
  | zero => intro i sch; rfl
  | succ m ih =>
    intro i sch
    rw [List.range'_succ, List.foldl_cons, ih]
    simp [fillStep]

lemma fill_getD_untouched (chunk : List Nat) :
    ∀ (n i : Nat) (sch : List Nat) (t : Nat), t < i ∨ i + n ≤ t →
      ((List.range' i n).foldl (fillStep chunk) sch).getD t 0 = sch.getD t 0 := by
  intro n
  induction n with
  | zero => intro i sch t _; rfl
  | succ m ih =>
    intro i sch t ht
    rw [List.range'_succ, List.foldl_cons, ih _ _ _ (by omega)]
    simp only [fillStep, List.getD_eq_getElem?_getD,
      List.getElem?_set_ne (by omega : i ≠ t)]

lemma fill_getD_in (chunk : List Nat) :
    ∀ (n i : Nat) (sch : List Nat) (t : Nat), i ≤ t → t < i + n → t < sch.length →
      ((List.range' i n).foldl (fillStep chunk) sch).getD t 0 = beWord chunk t := by
  intro n
  induction n with
  | zero => intro i sch t h1 h2 _; omega
  | succ m ih =>
    intro i sch t h1 h2 hlen
    rw [List.range'_succ, List.foldl_cons]
    rcases Nat.eq_or_lt_of_le h1 with heq | hgt
    · rw [← heq] at h2 hlen ⊢
      rw [fill_getD_untouched chunk m (i + 1) _ i (by omega)]
      simp only [fillStep, List.getD_eq_getElem?_getD,
        List.getElem?_set_self hlen, Option.getD_some]
    · exact ih (i + 1) _ t hgt (by omega) (by simp [fillStep, List.length_set]; omega)

lemma expand_length :
    ∀ (n i : Nat) (sch : List Nat),
      ((List.range' i n).foldl expandStep sch).length = sch.length := by
  intro n
  induction n with
  | zero => intro i sch; rfl
  | succ m ih =>
    intro i sch
    rw [List.range'_succ, List.foldl_cons, ih]
    simp [expandStep]

lemma expand_getD_lt :
    ∀ (n i : Nat) (sch : List Nat) (t : Nat), t < i →
      ((List.range' i n).foldl expandStep sch).getD t 0 = sch.getD t 0 := by
  intro n
  induction n with
  | zero => intro i sch t _; rfl
  | succ m ih =>
    intro i sch t ht
    rw [List.range'_succ, List.foldl_cons, ih _ _ _ (by omega)]
    simp only [expandStep, List.getD_eq_getElem?_getD,
      List.getElem?_set_ne (by omega : i ≠ t)]

lemma expand_spec :
    ∀ (n i : Nat) (sch : List Nat), sch.length = 80 → 3 ≤ i → i + n ≤ 80 →
      ∀ t, i ≤ t → t < i + n →
        ((List.range' i n).foldl expandStep sch).getD t 0 =
          rotl32
            ((((List.range' i n).foldl expandStep sch).getD (t - 3) 0) ^^^
              (((List.range' i n).foldl expandStep sch).getD (t - 8) 0) ^^^
              (((List.range' i n).foldl expandStep sch).getD (t - 14) 0) ^^^
              (((List.range' i n).foldl expandStep sch).getD (t - 16) 0)) 1 := by
  intro n
  induction n with
  | zero => intro i sch _ _ _ t h1 h2; omega
  | succ m ih =>
    intro i sch hlen h3 hbound t h1 h2
    rw [List.range'_succ, List.foldl_cons]
    rcases Nat.eq_or_lt_of_le h1 with heq | hgt
    · rw [← heq] at h2 ⊢
      rw [expand_getD_lt m (i + 1) _ i (by omega),
        expand_getD_lt m (i + 1) _ (i - 3) (by omega),
        expand_getD_lt m (i + 1) _ (i - 8) (by omega),
        expand_getD_lt m (i + 1) _ (i - 14) (by omega),
        expand_getD_lt m (i + 1) _ (i - 16) (by omega)]
      simp only [expandStep, List.getD_eq_getElem?_getD,
        List.getElem?_set_self (by omega : i < sch.length),
        List.getElem?_set_ne (by omega : i ≠ i - 3),
        List.getElem?_set_ne (by omega : i ≠ i - 8),
        List.getElem?_set_ne (by omega : i ≠ i - 14),
        List.getElem?_set_ne (by omega : i ≠ i - 16),
        Option.getD_some]
    · exact ih (i + 1) _ (by simp [expandStep, List.length_set, hlen]) (by omega)
        (by omega) t hgt (by omega)

/-- The filled entries of the schedule: for `t < 16` the array holds the
big-endian word `t` of the chunk. -/
lemma pms_getD_lt16 (chunk : List Nat) (t : Nat) (ht : t < 16) :
    (prepare_message_schedule chunk).getD t 0 = beWord chunk t := by
  unfold prepare_message_schedule
  rw [expand_getD_lt 64 16 _ t (by omega)]
  exact fill_getD_in chunk 16 0 _ t (Nat.zero_le t) (by omega)
    (by simp [List.length_replicate]; omega)

/-- The length of the schedule array is 80. -/
lemma pms_length (chunk : List Nat) :
    (prepare_message_schedule chunk).length = 80 := by
  unfold prepare_message_schedule
  rw [expand_length, fill_length]
  simp

/-- The expanded entries of the schedule: for `16 ≤ t < 80` the array
satisfies the SHA-1 recurrence over its own earlier entries. -/
lemma pms_getD_rec (chunk : List Nat) (t : Nat) (h16 : 16 ≤ t) (h80 : t < 80) :
    (prepare_message_schedule chunk).getD t 0 =
      rotl32
        (((prepare_message_schedule chunk).getD (t - 3) 0) ^^^
          ((prepare_message_schedule chunk).getD (t - 8) 0) ^^^
          ((prepare_message_schedule chunk).getD (t - 14) 0) ^^^
          ((prepare_message_schedule chunk).getD (t - 16) 0)) 1 := by
  unfold prepare_message_schedule
  exact expand_spec 64 16 _ (by rw [fill_length]; simp) (by omega) (by omega) t h16
    (by omega)

/-! ## The recursive schedule of `src/sha1sum/src/main.rs` -/

lemma U32M_eq_pow : U32M = 2 ^ 32 := by norm_num [U32M]

lemma getD_lt_256 (block : List Nat) (hb : ∀ b ∈ block, b < 256) (i : Nat) :
    block.getD i 0 < 256 := by
  rw [List.getD_eq_getElem?_getD]
  rcases h : block[i]? with _ | b
  · simp
  · simp only [Option.getD_some]
    exact hb b (List.getElem?_mem h)

lemma sliceWordBE_lt (block : List Nat) (hb : ∀ b ∈ block, b < 256) (i : Nat) :
    Sha1sumMain.sliceWordBE block i < U32M := by
  have h0 := getD_lt_256 block hb i
  have h1 := getD_lt_256 block hb (i + 1)
  have h2 := getD_lt_256 block hb (i + 2)
  have h3 := getD_lt_256 block hb (i + 3)
  rw [U32M_eq_pow, Sha1sumMain.sliceWordBE]
  refine Nat.bitwise_lt_two_pow (Nat.bitwise_lt_two_pow (Nat.bitwise_lt_two_pow ?_ ?_) ?_) ?_
  all_goals first
  | (rw [Nat.shiftLeft_eq]; omega)
  | omega

lemma beWord_lt (chunk : List Nat) (hb : ∀ b ∈ chunk, b < 256) (i : Nat) :
    beWord chunk i < U32M := by
  have h0 := getD_lt_256 chunk hb (4 * i)
  have h1 := getD_lt_256 chunk hb (4 * i + 1)
  have h2 := getD_lt_256 chunk hb (4 * i + 2)
  have h3 := getD_lt_256 chunk hb (4 * i + 3)
  rw [U32M_eq_pow, beWord]
  refine Nat.bitwise_lt_two_pow (Nat.bitwise_lt_two_pow (Nat.bitwise_lt_two_pow ?_ ?_) ?_) ?_
  all_goals first
  | (rw [Nat.shiftLeft_eq]; omega)
  | omega

lemma W_lt (block : List Nat) (hb : ∀ b ∈ block, b < 256) :
    ∀ t, Sha1sumMain.W block t < U32M := by
  intro t
  induction t using Nat.strong_induction_on with
  | _ t ih =>
    rw [Sha1sumMain.W.eq_def]
    split
    · exact sliceWordBE_lt block hb _
    · split
      · rw [Sha1sumMain.rotl_u32]
        rw [U32M_eq_pow]
        refine Nat.bitwise_lt_two_pow (Nat.mod_lt _ (by norm_num [U32M_eq_pow])) ?_
        have hxor : (Sha1sumMain.W block (t - 3)) ^^^ (Sha1sumMain.W block (t - 8)) ^^^
            (Sha1sumMain.W block (t - 14)) ^^^ (Sha1sumMain.W block (t - 16)) < 2 ^ 32 := by
          rw [← U32M_eq_pow]
          rw [U32M_eq_pow]
          exact Nat.xor_lt_two_pow
            (Nat.xor_lt_two_pow
              (Nat.xor_lt_two_pow
                (by rw [← U32M_eq_pow]; exact ih _ (by omega))
                (by rw [← U32M_eq_pow]; exact ih _ (by omega)))
              (by rw [← U32M_eq_pow]; exact ih _ (by omega)))
            (by rw [← U32M_eq_pow]; exact ih _ (by omega))
        calc _ ≤ _ := by
              rw [Nat.shiftRight_eq_div_pow]
              exact Nat.div_le_self _ _
        _ < 2 ^ 32 := hxor
      · rw [U32M_eq_pow]; positivity

lemma rotl_u32_one_eq (v : Nat) (hv : v < U32M) :
    Sha1sumMain.rotl_u32 v 1 = rotl32 v 1 := by
  rw [Sha1sumMain.rotl_u32, rotl32, U32M_eq_pow] at *
  refine Nat.eq_of_testBit_eq fun i => ?_
  show ((v <<< 1) % 2 ^ 32 ||| v >>> (32 - 1)).testBit i =
    ((v <<< 1 ||| v >>> (32 - 1)) % 2 ^ 32).testBit i
  simp only [Nat.testBit_lor, Nat.testBit_mod_two_pow, Nat.testBit_shiftRight]
  by_cases hi : i < 32
  · simp [hi]
  · have hfalse : v.testBit (32 - 1 + i) = false := Nat.testBit_lt_two_pow
      (lt_of_lt_of_le hv (Nat.pow_le_pow_right (by norm_num) (by omega)))
    simp [hi, hfalse]

lemma beWord_eq_slice (chunk : List Nat) (t : Nat) :
    beWord chunk t = Sha1sumMain.sliceWordBE chunk (4 * t) := by
  simp [beWord, Sha1sumMain.sliceWordBE]

lemma pms_eq_W (block : List Nat) (hb : ∀ b ∈ block, b < 256) :
    ∀ t, t < 80 →
      (prepare_message_schedule block).getD t 0 = Sha1sumMain.W block t := by
  intro t
  induction t using Nat.strong_induction_on with
  | _ t ih =>
    intro ht
    rcases Nat.lt_or_ge t 16 with h16 | h16
    · rw [pms_getD_lt16 block t h16, Sha1sumMain.W.eq_def, dif_pos h16,
        beWord_eq_slice]
    · rw [Sha1sumMain.W.eq_def, dif_neg (by omega : ¬ t < 16), dif_pos ht,
        pms_getD_rec block t h16 ht,
        ih (t - 3) (by omega) (by omega), ih (t - 8) (by omega) (by omega),
        ih (t - 14) (by omega) (by omega), ih (t - 16) (by omega) (by omega)]
      refine (rotl_u32_one_eq _ ?_).symm
      rw [U32M_eq_pow]
      exact Nat.xor_lt_two_pow
        (Nat.xor_lt_two_pow
          (Nat.xor_lt_two_pow
            (by rw [← U32M_eq_pow]; exact W_lt block hb _)
            (by rw [← U32M_eq_pow]; exact W_lt block hb _))
          (by rw [← U32M_eq_pow]; exact W_lt block hb _))
        (by rw [← U32M_eq_pow]; exact W_lt block hb _)

/-! ## Equivalence of the compression loop with its specification -/

lemma f_eq_fSpec (x y z t : Nat) (ht : t < 80) :
    f x y z t = SpecModel.fSpec x y z t := by
  unfold f SpecModel.fSpec
  split_ifs <;> first
  | rfl
  | omega

lemma K_eq_KSpec (t : Nat) (ht : t < 80) : K t = SpecModel.KSpec t := by
  unfold K SpecModel.KSpec
  split_ifs <;> first
  | rfl
  | omega

lemma roundStep_eq_stepSpec (sched : List Nat) (st : Nat × Nat × Nat × Nat × Nat)
    (t : Nat) (ht : t < 80) : roundStep sched st t = SpecModel.stepSpec sched st t := by
  obtain ⟨a, b, c, d, e⟩ := st
  simp only [roundStep, SpecModel.stepSpec, f_eq_fSpec b c d t ht, K_eq_KSpec t ht]
  have harith :
      wadd (wadd (wadd (wadd (rotl32 a 5) (SpecModel.fSpec b c d t)) e)
          (SpecModel.KSpec t)) (sched.getD t 0) =
        (rotl32 a 5 + SpecModel.fSpec b c d t + e + SpecModel.KSpec t +
          sched.getD t 0) % U32M := by
    simp only [wadd, U32M]
    omega
  rw [harith]

lemma foldl_eq_loopSpec (sched : List Nat) :
    ∀ (n t : Nat) (st : Nat × Nat × Nat × Nat × Nat), 80 - t = n →
      (List.range' t n).foldl (roundStep sched) st = SpecModel.loopSpec sched t st := by
  intro n
  induction n with
  | zero =>
    intro t st ht
    rw [SpecModel.loopSpec.eq_def, dif_neg (by omega : ¬ t < 80)]
    rfl
  | succ m ih =>
    intro t st ht
    rw [SpecModel.loopSpec.eq_def, dif_pos (by omega : t < 80), List.range'_succ,
      List.foldl_cons, roundStep_eq_stepSpec sched st t (by omega),
      ih (t + 1) _ (by omega)]

/-! ## The claims -/

/-- C1: starting from a fresh engine, padding the complete message once
with `pad_message` (`total_size` equal to the message's byte length) and
passing the padded buffer to `ingest`, `digest()` returns the known
SHA-1 vectors for the empty message, `"test"` and `"abc"`. -/
theorem sha1_known_vectors :
    digestAfterPad [] = Except.ok "da39a3ee5e6b4b0d3255bfef95601890afd80709" ∧
    digestAfterPad [116, 101, 115, 116] =
      Except.ok "a94a8fe5ccb19ba61c4c0873d391e987982fbbd3" ∧
    digestAfterPad [97, 98, 99] =
      Except.ok "a9993e364706816aba3e25717850c26c9cd0d89d" :=
  ⟨by decide, by decide, by decide⟩

/-- C2: for every 64-byte block and every hash state, `ingest_chunk`
computes exactly the compression described by the specification:
working variables from `h0..h4`, for `t = 0..79` in strictly increasing
order `tmp = rotl32(a,5) + f(b,c,d,t) + e + K(t) + W[t]` with all
additions modulo `2^32`, the register shift, and the final modular
additions into `h0..h4`, with `f` and `K` given by the four ranges. -/
theorem ingest_chunk_matches_spec (s : SHA1) (chunk : List Nat) :
    s.ingest_chunk chunk = SpecModel.ingestChunkSpec s chunk := by
  simp only [SHA1.ingest_chunk, SpecModel.ingestChunkSpec]
  rw [List.range_eq_range',
    foldl_eq_loopSpec (prepare_message_schedule chunk) 80 0 _ (by omega)]
  rcases hres : SpecModel.loopSpec (prepare_message_schedule chunk) 0
    (s.h0, s.h1, s.h2, s.h3, s.h4) with ⟨a, b, c, d, e⟩
  rfl

/-- C3: for every 64-byte block, entries 0–15 of the message schedule
are the big-endian 32-bit words of the block in order, and every entry
`16 ≤ t < 80` is `rotl32` by 1 of the xor of entries `t-3`, `t-8`,
`t-14`, `t-16`. -/
theorem schedule_invariant (chunk : List Nat) (_hlen : chunk.length = 64) :
    (∀ t, t < 16 →
      (prepare_message_schedule chunk).getD t 0 = beWord chunk t) ∧
    (∀ t, 16 ≤ t → t < 80 →
      (prepare_message_schedule chunk).getD t 0 =
        rotl32 (((prepare_message_schedule chunk).getD (t - 3) 0) ^^^
          ((prepare_message_schedule chunk).getD (t - 8) 0) ^^^
          ((prepare_message_schedule chunk).getD (t - 14) 0) ^^^
          ((prepare_message_schedule chunk).getD (t - 16) 0)) 1) :=
  ⟨fun t ht => pms_getD_lt16 chunk t ht,
   fun t h1 h2 => pms_getD_rec chunk t h1 h2⟩

/-- Witness for C3 at the concrete block of 64 `0x01` bytes, entries 0
and 16. -/
theorem schedule_invariant_witness :
    (prepare_message_schedule (List.replicate 64 1)).getD 0 0 =
      beWord (List.replicate 64 1) 0 ∧
    (prepare_message_schedule (List.replicate 64 1)).getD 16 0 =
      rotl32 (((prepare_message_schedule (List.replicate 64 1)).getD 13 0) ^^^
        ((prepare_message_schedule (List.replicate 64 1)).getD 8 0) ^^^
        ((prepare_message_schedule (List.replicate 64 1)).getD 2 0) ^^^
        ((prepare_message_schedule (List.replicate 64 1)).getD 0 0)) 1 :=
  ⟨(schedule_invariant (List.replicate 64 1) (by decide)).1 0 (by decide),
   (schedule_invariant (List.replicate 64 1) (by decide)).2 16 (by decide) (by decide)⟩

/-- C4 (failing input): on a 56-byte message with `total_size = 56`,
`pad_message` returns a 64-byte buffer (not 128) in which the `0x80`
marker has been overwritten by the big-endian length field, so the
padding invariant of the claim does not hold on this code. -/
theorem pad_message_56_overwrites_marker :
    pad_message (List.replicate 56 97) 56 =
      Except.ok (List.replicate 56 97 ++ [0, 0, 0, 0, 0, 0, 1, 192]) ∧
    (List.replicate 56 97 ++ [0, 0, 0, 0, 0, 0, 1, 192]).length = 64 ∧
    (List.replicate 56 97 ++ [0, 0, 0, 0, 0, 0, 1, 192]).getD 56 0 ≠ 0x80 :=
  ⟨by decide, by decide, by decide⟩

/-- C5 (failing input): with a cumulative length of `2^61` bytes, whose
bit length `2^64` does not fit in a `u64`, `pad_message` still returns
`Ok` — the wrapped bit-length field is all zeros — instead of the
caller-visible error the claim requires. -/
theorem pad_message_overflow_returns_ok :
    pad_message [] 2305843009213693952 =
      Except.ok (128 :: List.replicate 63 0) := by
  decide

/-- C6: `ingest` returns an error iff the buffer length is not a
multiple of 64; on a multiple of 64 it returns `Ok` with the state
obtained by compressing the consecutive 64-byte blocks in order. -/
theorem ingest_error_iff_not_block_multiple (s : SHA1) (stream : List Nat) :
    ((s.ingest stream).2 = Except.ok () ↔ stream.length % 64 = 0) ∧
    (stream.length % 64 = 0 →
      s.ingest stream =
        ((chunks64 stream).foldl SHA1.ingest_chunk s, Except.ok ())) :=
  ⟨ingest_ok_iff stream.length stream s rfl,
   fun h => ingest_eq_chunks stream.length stream s rfl h⟩

/-- Witness for C6 on a concrete 64-byte buffer. -/
theorem ingest_error_iff_not_block_multiple_witness :
    SHA1.new.ingest (List.replicate 64 5) =
      ((chunks64 (List.replicate 64 5)).foldl SHA1.ingest_chunk SHA1.new,
        Except.ok ()) :=
  (ingest_error_iff_not_block_multiple SHA1.new (List.replicate 64 5)).2 (by decide)

/-- C7: feeding a buffer to a fresh engine in one `ingest` call or
split at any 64-byte-multiple boundaries into several sequential calls
yields the identical final state (hence identical digest) and `Ok`. -/
theorem ingest_split_invariance (segs : List (List Nat)) (s : SHA1)
    (h : ∀ seg ∈ segs, seg.length % 64 = 0) :
    s.ingest segs.flatten =
      (segs.foldl (fun st seg => (st.ingest seg).1) s, Except.ok ()) := by
  induction segs generalizing s with
  | nil => exact ingest_nil s
  | cons a l ihl =>
    have ha : a.length % 64 = 0 := h a (List.mem_cons_self a l)
    rw [List.flatten_cons, ingest_append a.length a l.flatten s rfl ha,
      ihl ((s.ingest a).1) (fun seg hs => h seg (List.mem_cons_of_mem a hs)),
      List.foldl_cons]

/-- Witness for C7 on two concrete 64-byte segments. -/
theorem ingest_split_invariance_witness :
    SHA1.new.ingest ([List.replicate 64 0, List.replicate 64 0] : List (List Nat)).flatten =
      ([List.replicate 64 0, List.replicate 64 0].foldl
        (fun st seg => (st.ingest seg).1) SHA1.new, Except.ok ()) :=
  ingest_split_invariance [List.replicate 64 0, List.replicate 64 0] SHA1.new
    (by decide)

/-- C8: for every 64-byte block of bytes and every `t < 80`, the
recursive schedule-word function `W` of `src/sha1sum/src/main.rs`
returns the same word as entry `t` of the forward-filled 80-word array
of `src/src/lib.rs`. -/
theorem recursive_W_eq_schedule (block : List Nat) (_hlen : block.length = 64)
    (hb : ∀ b ∈ block, b < 256) (t : Nat) (ht : t < 80) :
    Sha1sumMain.W block t = (prepare_message_schedule block).getD t 0 :=
  (pms_eq_W block hb t ht).symm

/-- Witness for C8 at a concrete block and step 20. -/
theorem recursive_W_eq_schedule_witness :
    Sha1sumMain.W (List.replicate 64 2) 20 =
      (prepare_message_schedule (List.replicate 64 2)).getD 20 0 :=
  recursive_W_eq_schedule (List.replicate 64 2) (by decide) (by decide) 20
    (by decide)

/-- C9 (counterexample): the engine's digest of the 4-byte ASCII input
`test` is not `4e1243bd22c66e76c2ba9eddc1f91394e57f9f83` (that string
is the SHA-1 of `"test\n"`); the code produces
`a94a8fe5ccb19ba61c4c0873d391e987982fbbd3`. -/
theorem digest_test_not_newline_vector :
    digestAfterPad [116, 101, 115, 116] ≠
      Except.ok "4e1243bd22c66e76c2ba9eddc1f91394e57f9f83" := by
  decide

/-- C9 (amended): for the 5-byte input `test` followed by a newline
(the bytes `echo test` emits), the digest is the lowercase, 40-character
separator-free hex string `4e1243bd22c66e76c2ba9eddc1f91394e57f9f83`. -/
theorem digest_test_newline_hex_form :
    digestAfterPad [116, 101, 115, 116, 10] =
      Except.ok "4e1243bd22c66e76c2ba9eddc1f91394e57f9f83" ∧
    "4e1243bd22c66e76c2ba9eddc1f91394e57f9f83".length = 40 ∧
    "4e1243bd22c66e76c2ba9eddc1f91394e57f9f83".toList.all
      (fun c => decide (c ∈ "0123456789abcdef".toList)) = true :=
  ⟨by decide, by decide, by decide⟩

/-- C10: when `ingest` is called on a buffer whose length is not a
multiple of 64, it returns an error, and the state after the failing
call equals the state after successfully ingesting the first
`64*(n/64)` bytes — the complete leading blocks are already compressed
(`ingest` is not atomic on error). -/
theorem ingest_error_keeps_complete_blocks (s : SHA1) (stream : List Nat)
    (h : stream.length % 64 ≠ 0) :
    (s.ingest stream).1 =
      (s.ingest (stream.take (64 * (stream.length / 64)))).1 ∧
    (s.ingest (stream.take (64 * (stream.length / 64)))).2 = Except.ok () ∧
    ∃ e, (s.ingest stream).2 = Except.error e :=
  ingest_err stream.length stream s rfl h

/-- Witness for C10 on a concrete 65-byte buffer. -/
theorem ingest_error_keeps_complete_blocks_witness :
    (SHA1.new.ingest (List.replicate 65 7)).1 =
      (SHA1.new.ingest ((List.replicate 65 7).take
        (64 * ((List.replicate 65 7).length / 64)))).1 ∧
    (SHA1.new.ingest ((List.replicate 65 7).take
      (64 * ((List.replicate 65 7).length / 64)))).2 = Except.ok () ∧
    ∃ e, (SHA1.new.ingest (List.replicate 65 7)).2 = Except.error e :=
  ingest_error_keeps_complete_blocks SHA1.new (List.replicate 65 7) (by decide)
